import Mathlib

/-!
Verification of the feature-coverage matrix builder and scoring layer of the
Competitor-Analysis-Engine repository (backend/matrix.py and backend/weighting.py),
as a shallow embedding in Lean.

Modelling conventions:
* Python `dict` values are association lists (`List (String × _)`) in insertion
  order; `dict.get(k, d)` is `(List.lookup k l).getD d`.
* Python `float` arithmetic is modelled over `ℚ`; `round(x, 2)` is modelled as
  exact half-to-even rounding at two decimal places (`pyRound2`).
* Python's `sorted` (a stable sort) is modelled by `List.insertionSort`, which
  is likewise stable.
-/

/-- Boolean code-point lexicographic comparison of character lists; this is the
order Python uses on strings (and the order underlying Lean's `String` order),
written out so that it evaluates by kernel reduction. -/
def charListLe : List Char → List Char → Bool
  | [], _ => true
  | _ :: _, [] => false
  | a :: as, b :: bs => if a < b then true else if b < a then false else charListLe as bs

/-- Lexicographic (code-point) order on strings, the order of Python `sorted`. -/
def strLe (a b : String) : Prop := charListLe a.data b.data = true

instance : DecidableRel strLe :=
  fun a b => inferInstanceAs (Decidable (charListLe a.data b.data = true))

theorem charListLe_total : ∀ as bs, charListLe as bs = true ∨ charListLe bs as = true := by
  intro as
  induction as with
  | nil => intro bs; left; rfl
  | cons a as ih =>
    intro bs
    cases bs with
    | nil => right; rfl
    | cons b bs =>
      rcases lt_trichotomy a b with h | h | h
      · left; simp [charListLe, h]
      · subst h
        rcases ih bs with h' | h'
        · left; simp [charListLe, h']
        · right; simp [charListLe, h']
      · right; simp [charListLe, h]

theorem charListLe_trans :
    ∀ as bs cs, charListLe as bs = true → charListLe bs cs = true → charListLe as cs = true := by
  intro as
  induction as with
  | nil => intro bs cs _ _; rfl
  | cons a as ih =>
    intro bs cs h1 h2
    cases bs with
    | nil => simp [charListLe] at h1
    | cons b bs =>
      cases cs with
      | nil => simp [charListLe] at h2
      | cons c cs =>
        simp only [charListLe] at h1 h2 ⊢
        by_cases hab : a < b
        · by_cases hbc : b < c
          · simp [lt_trans hab hbc]
          · by_cases hcb : c < b
            · simp [hbc, hcb] at h2
            · have : b = c := le_antisymm (le_of_not_lt hcb) (le_of_not_lt hbc)
              subst this
              simp [hab]
        · by_cases hba : b < a
          · simp [hab, hba] at h1
          · have : a = b := le_antisymm (le_of_not_lt hba) (le_of_not_lt hab)
            subst this
            by_cases hbc : a < c
            · simp [hbc]
            · by_cases hcb : c < a
              · simp [hbc, hcb] at h2
              · simp only [hab, hba, if_neg, if_false] at h1
                simp only [hbc, hcb, if_neg, if_false] at h2
                simp [hbc, hcb, ih bs cs h1 h2]

instance : IsTotal String strLe := ⟨fun a b => charListLe_total a.data b.data⟩

instance : IsTrans String strLe := ⟨fun _ _ _ => charListLe_trans _ _ _⟩

/-- A catalog entry. The source represents a feature as a JSON dict; the matrix
and weighting code reads only its "feature_name" key (`f["feature_name"]` /
`f.get("feature_name", "")`), so only that field is modelled. -/
structure Feature where
  feature_name : String
deriving DecidableEq

/-- The coverage map `product_features : Dict[str, List[str]]`, in insertion order. -/
abbrev Coverage := List (String × List String)

/-- The weight table `feature_weights : Dict[str, float]`, in insertion order. -/
abbrev WeightTable := List (String × ℚ)

/-- Python `product_features.get(product, [])`. -/
def pyGet (pf : Coverage) (p : String) : List String := (List.lookup p pf).getD []

/-- Insert-or-overwrite for an association list: the semantics of assigning a
key in a Python dict (an existing key keeps its position, a new key is appended). -/
def dictInsert {α : Type} : List (String × α) → String → α → List (String × α)
  | [], k, v => [(k, v)]
  | (k', v') :: rest, k, v =>
    if k' = k then (k, v) :: rest else (k', v') :: dictInsert rest k v

/-- The dense comparison matrix built by `_build_matrix` (backend/matrix.py):
a DataFrame whose row index is the sorted product names and whose columns map
each feature name to the per-product 0/1 vector (here `Bool`). -/
structure Df where
  index : List String
  cols : List (String × List Bool)
deriving DecidableEq

/-- Shallow embedding of `_build_matrix(features, product_features)`
(backend/matrix.py): feature names are taken in catalog order, product names are
sorted, and the column dict maps each feature name to the vector of
`1 if feature_name in product_features.get(product, []) else 0` over the sorted
products (the dict comprehension collapses duplicate feature names, which
`dictInsert` reproduces). -/
def buildMatrix (features : List Feature) (product_features : Coverage) : Df :=
  let feature_names := features.map (·.feature_name)
  let product_names := List.insertionSort strLe (product_features.map Prod.fst)
  let matrix_data := feature_names.foldl
    (fun d fn =>
      dictInsert d fn (product_names.map (fun p => decide (fn ∈ pyGet product_features p))))
    []
  ⟨product_names, matrix_data⟩

/-- The cell of the matrix at a given product row and feature column, when defined. -/
def cell (df : Df) (p f : String) : Option Bool :=
  (List.lookup f df.cols).bind fun col => List.lookup p (df.index.zip col)

/-- Errors a call can end in. `typeError` and `attributeError` are the Python
built-in errors raised when iterating `None` or calling `.keys()` on `None`;
`invalidInput` is the dedicated error named by the spec (never raised by the code). -/
inductive PyError where
  | typeError
  | attributeError
  | invalidInput
deriving DecidableEq

/-- Behaviour of `_build_matrix` when a caller passes `None` in place of an
argument, following Python runtime semantics: the list comprehension over
`features` runs first and iterating `None` raises `TypeError`; otherwise
`product_features.keys()` on `None` raises `AttributeError`; with both
arguments present the matrix is computed. -/
def buildMatrixChecked (features : Option (List Feature)) (product_features : Option Coverage) :
    Except PyError Df :=
  match features with
  | none => Except.error PyError.typeError
  | some fs =>
    match product_features with
    | none => Except.error PyError.attributeError
    | some cov => Except.ok (buildMatrix fs cov)

/-- Round an exact rational to an integer, halves to the even neighbour: the
rounding rule of Python's built-in `round`. -/
def roundHalfEven (x : ℚ) : ℤ :=
  if Int.fract x = 1 / 2 then (if ⌊x⌋ % 2 = 0 then ⌊x⌋ else ⌊x⌋ + 1) else round x

/-- Python `round(x, 2)`: round half-to-even at two decimal places. -/
def pyRound2 (x : ℚ) : ℚ := (roundHalfEven (x * 100) : ℚ) / 100

/-- Python `feature_weights.get(feature_name, 1.0)`. -/
def weightOf (fw : WeightTable) (n : String) : ℚ := (List.lookup n fw).getD 1

/-- The accumulation loop of `calculate_weighted_scores`:
`score = 0; for feature_name in feature_list: score += feature_weights.get(feature_name, 1.0)`. -/
def rawScore (fw : WeightTable) (l : List String) : ℚ :=
  l.foldl (fun s n => s + weightOf fw n) 0

/-- Python `sum(feature_weights.values())`. -/
def totalWeight (fw : WeightTable) : ℚ := (fw.map Prod.snd).sum

/-- Shallow embedding of `calculate_weighted_scores(product_features, features,
feature_weights)` (backend/weighting.py of the Downloads variant; the `features`
argument is unused by the source body and omitted): the total weight is clamped
from 0 to 1, each product's raw score is the loop above, and the normalised
score is `(score / total_weight) * 100` when the total is positive, else 0,
rounded to two decimals. -/
def calculateWeightedScores (product_features : Coverage) (fw : WeightTable) :
    List (String × ℚ) :=
  let t0 := totalWeight fw
  let t := if t0 = 0 then 1 else t0
  product_features.map fun pl =>
    (pl.1, pyRound2 (if 0 < t then rawScore fw pl.2 / t * 100 else 0))

/-- A row of the feature-rows DataFrame built by `build_comparison_matrix`
(Downloads variant of backend/matrix.py): the "Feature" column value and the
per-product "✓"/"✗" cells, aligned with the product column list. -/
structure FRow where
  feature : String
  cells : List String
deriving DecidableEq

/-- The feature-rows DataFrame: product column names plus one `FRow` per feature. -/
structure FDf where
  products : List String
  rows : List FRow
deriving DecidableEq

/-- Shallow embedding of `build_comparison_matrix(product_name, features,
product_features)` (Downloads variant of backend/matrix.py): one row per
catalog feature, cells `"✓"` when the feature name occurs in
`product_features.get(product, [])` and `"✗"` otherwise. -/
def buildComparisonMatrix (features : List Feature) (product_features : Coverage) : FDf :=
  { products := product_features.map Prod.fst,
    rows := features.map fun f =>
      ⟨f.feature_name,
        (product_features.map Prod.fst).map fun p =>
          if f.feature_name ∈ pyGet product_features p then "✓" else "✗"⟩ }

/-- A row of the weighted comparison DataFrame: the original feature name and
cells, the "Weight" column value, and the per-product "..._Score" column values
aligned with the product list. -/
structure WRow where
  feature : String
  cells : List String
  weight : ℚ
  scores : List ℚ
deriving DecidableEq

/-- The weighted comparison DataFrame. -/
structure WDf where
  products : List String
  rows : List WRow
deriving DecidableEq

/-- Shallow embedding of `create_weighted_comparison_matrix(matrix_df,
feature_weights)` (backend/weighting.py): copies the input DataFrame, adds a
Weight column `matrix_df['Feature'].map(feature_weights).fillna(1.0)` (which is
`weightOf`), and per product a score column holding the row's weight where the
cell is `"✓"` and `0` otherwise. -/
def createWeightedComparisonMatrix (matrix_df : FDf) (fw : WeightTable) : WDf :=
  { products := matrix_df.products,
    rows := matrix_df.rows.map fun r =>
      let w := weightOf fw r.feature
      ⟨r.feature, r.cells, w, r.cells.map fun c => if c = "✓" then w else 0⟩ }

/-- A ranking entry produced by `rank_products_by_score`. -/
structure RankEntry where
  rank : ℕ
  product : String
  score : ℚ
  is_main_product : Bool
deriving DecidableEq

instance : DecidableRel (fun a b : String × ℚ => b.2 ≤ a.2) :=
  fun a b => inferInstanceAs (Decidable (b.2 ≤ a.2))

instance : IsTotal (String × ℚ) (fun a b => b.2 ≤ a.2) := ⟨fun a b => le_total b.2 a.2⟩

instance : IsTrans (String × ℚ) (fun a b => b.2 ≤ a.2) :=
  ⟨fun _ _ _ h1 h2 => le_trans h2 h1⟩

/-- Shallow embedding of `rank_products_by_score(weighted_scores, product_name)`
(backend/weighting.py): a stable sort on score descending
(`sorted(items, key=lambda x: x[1], reverse=True)`), then 1-based enumeration. -/
def rankProductsByScore (weighted_scores : List (String × ℚ)) (product_name : String) :
    List RankEntry :=
  let sorted_products := List.insertionSort (fun a b => b.2 ≤ a.2) weighted_scores
  (List.enumFrom 1 sorted_products).map fun re =>
    ⟨re.1, re.2.1, re.2.2, re.2.1 == product_name⟩

/-! ### Helper lemmas about rounding -/

theorem pyRound2_intCast (n : ℤ) : pyRound2 ((n : ℚ)) = n := by
  unfold pyRound2 roundHalfEven
  have h : ((n : ℚ)) * 100 = ((n * 100 : ℤ) : ℚ) := by push_cast; ring
  rw [h, Int.fract_intCast, round_intCast, if_neg (by norm_num)]
  push_cast
  ring

theorem floor_le_roundHalfEven (x : ℚ) : ⌊x⌋ ≤ roundHalfEven x := by
  unfold roundHalfEven
  split
  · split
    · exact le_refl _
    · exact Int.le_add_one (le_refl _)
  · rw [round_eq]
    exact Int.floor_le_floor (by linarith)

theorem roundHalfEven_le_ceil (x : ℚ) : roundHalfEven x ≤ ⌈x⌉ := by
  unfold roundHalfEven
  split
  · rename_i hf
    have hlt : (⌊x⌋ : ℚ) < x := by
      have h2 : x - ⌊x⌋ = 1 / 2 := by rw [Int.self_sub_floor, hf]
      linarith
    have hceil : ⌊x⌋ < ⌈x⌉ := Int.lt_ceil.mpr hlt
    split
    · exact Int.floor_le_ceil x
    · omega
  · rw [round_eq]
    have h1 : x ≤ (⌈x⌉ : ℚ) := Int.le_ceil x
    have h2 : x + 1 / 2 < ((⌈x⌉ + 1 : ℤ) : ℚ) := by push_cast; linarith
    have h3 : ⌊x + 1 / 2⌋ < ⌈x⌉ + 1 := Int.floor_lt.mpr h2
    omega

theorem pyRound2_bounds {x : ℚ} (h0 : 0 ≤ x) (h1 : x ≤ 100) :
    0 ≤ pyRound2 x ∧ pyRound2 x ≤ 100 := by
  unfold pyRound2
  constructor
  · apply div_nonneg _ (by norm_num)
    have hfl : (0 : ℤ) ≤ ⌊x * 100⌋ := Int.floor_nonneg.mpr (by positivity)
    have := floor_le_roundHalfEven (x * 100)
    exact_mod_cast le_trans hfl this
  · rw [div_le_iff₀ (by norm_num : (0:ℚ) < 100)]
    have hcl : ⌈x * 100⌉ ≤ (10000 : ℤ) := Int.ceil_le.mpr (by push_cast; linarith)
    have := roundHalfEven_le_ceil (x * 100)
    have hk : roundHalfEven (x * 100) ≤ (10000 : ℤ) := le_trans this hcl
    calc ((roundHalfEven (x * 100) : ℚ)) ≤ ((10000 : ℤ) : ℚ) := by exact_mod_cast hk
      _ = 100 * 100 := by norm_num

/-! ### Helper lemmas about scoring -/

theorem foldl_add_eq (f : String → ℚ) : ∀ (l : List String) (a : ℚ),
    l.foldl (fun s n => s + f n) a = a + (l.map f).sum
  | [], a => by simp
  | n :: l, a => by
    simp only [List.foldl, List.map_cons, List.sum_cons]
    rw [foldl_add_eq f l (a + f n)]
    ring

theorem rawScore_eq_sum (fw : WeightTable) (l : List String) :
    rawScore fw l = (l.map (weightOf fw)).sum := by
  unfold rawScore
  rw [foldl_add_eq]
  ring

theorem rawScore_cons (fw : WeightTable) (n : String) (l : List String) :
    rawScore fw (n :: l) = weightOf fw n + rawScore fw l := by
  rw [rawScore_eq_sum, rawScore_eq_sum, List.map_cons, List.sum_cons]

theorem lookup_mem_values {fw : WeightTable} {n : String} {w : ℚ} :
    List.lookup n fw = some w → w ∈ fw.map Prod.snd := by
  induction fw with
  | nil => intro h; simp [List.lookup] at h
  | cons kv rest ih =>
    obtain ⟨k, v⟩ := kv
    intro h
    cases hk : (n == k) with
    | true =>
      simp only [List.lookup, hk, Option.some.injEq] at h
      simp [← h]
    | false =>
      simp only [List.lookup, hk] at h
      simpa using Or.inr (ih h)

theorem weightOf_nonneg {fw : WeightTable} (hnn : ∀ w ∈ fw.map Prod.snd, 0 ≤ w) (n : String) :
    0 ≤ weightOf fw n := by
  unfold weightOf
  cases h : List.lookup n fw with
  | none => norm_num
  | some w => exact hnn w (lookup_mem_values h)

theorem rawScore_nonneg {fw : WeightTable} (hnn : ∀ w ∈ fw.map Prod.snd, 0 ≤ w)
    (l : List String) : 0 ≤ rawScore fw l := by
  rw [rawScore_eq_sum]
  apply List.sum_nonneg
  intro x hx
  obtain ⟨n, _, rfl⟩ := List.mem_map.mp hx
  exact weightOf_nonneg hnn n

theorem totalWeight_cons (k : String) (v : ℚ) (rest : WeightTable) :
    totalWeight ((k, v) :: rest) = v + totalWeight rest := by
  simp [totalWeight]

theorem weightOf_cons_self (k : String) (v : ℚ) (rest : WeightTable) :
    weightOf ((k, v) :: rest) k = v := by
  simp [weightOf, List.lookup]

theorem weightOf_cons_ne {n k : String} (hne : n ≠ k) (v : ℚ) (rest : WeightTable) :
    weightOf ((k, v) :: rest) n = weightOf rest n := by
  have : (n == k) = false := beq_eq_false_iff_ne.mpr hne
  simp [weightOf, List.lookup, this]

theorem lookup_isSome_of_mem_keys {fw : WeightTable} {n : String} :
    n ∈ fw.map Prod.fst → ∃ w, List.lookup n fw = some w := by
  induction fw with
  | nil => intro h; simp at h
  | cons kv rest ih =>
    obtain ⟨k, v⟩ := kv
    intro h
    cases hk : (n == k) with
    | true => exact ⟨v, by simp [List.lookup, hk]⟩
    | false =>
      have hne : n ≠ k := by simpa using beq_eq_false_iff_ne.mp hk
      have : n ∈ rest.map Prod.fst := by
        rcases (by simpa using h : n = k ∨ n ∈ rest.map Prod.fst) with h' | h'
        · exact absurd h' hne
        · exact h'
      obtain ⟨w, hw⟩ := ih this
      exact ⟨w, by simp [List.lookup, hk, hw]⟩

theorem weightOf_eq_zero {fw : WeightTable} {n : String}
    (hz : ∀ w ∈ fw.map Prod.snd, w = 0) (hn : n ∈ fw.map Prod.fst) :
    weightOf fw n = 0 := by
  obtain ⟨w, hw⟩ := lookup_isSome_of_mem_keys hn
  rw [weightOf, hw, Option.getD_some]
  exact hz w (lookup_mem_values hw)

theorem lookup_sum_le :
    ∀ (fw : WeightTable) (names : List String),
      (∀ w ∈ fw.map Prod.snd, 0 ≤ w) → names.Nodup →
      (∀ n ∈ names, n ∈ fw.map Prod.fst) →
      (names.map (weightOf fw)).sum ≤ totalWeight fw := by
  intro fw
  induction fw with
  | nil =>
    intro names _ _ hsub
    cases names with
    | nil => simp [totalWeight]
    | cons n l => exact absurd (hsub n (by simp)) (by simp)
  | cons kv rest ih =>
    obtain ⟨k, v⟩ := kv
    intro names hnn hnd hsub
    have hv : 0 ≤ v := hnn v (by simp)
    have hnn' : ∀ w ∈ rest.map Prod.snd, 0 ≤ w := fun w hw => hnn w (by simp [hw])
    by_cases hk : k ∈ names
    · obtain ⟨l₁, l₂, rfl⟩ := List.append_of_mem hk
      have hmid := List.nodup_cons.mp (List.nodup_middle.mp hnd)
      have hknotin : k ∉ l₁ ++ l₂ := hmid.1
      have hnd' : (l₁ ++ l₂).Nodup := hmid.2
      have hcongr : ∀ n ∈ l₁ ++ l₂, weightOf ((k, v) :: rest) n = weightOf rest n := by
        intro n hn
        have hne : n ≠ k := fun he => hknotin (he ▸ hn)
        exact weightOf_cons_ne hne v rest
      have hsub' : ∀ n ∈ l₁ ++ l₂, n ∈ rest.map Prod.fst := by
        intro n hn
        have hne : n ≠ k := fun he => hknotin (he ▸ hn)
        have := hsub n (by
          rcases List.mem_append.mp hn with h' | h'
          · exact List.mem_append.mpr (Or.inl h')
          · exact List.mem_append.mpr (Or.inr (List.mem_cons_of_mem _ h')))
        rcases (by simpa using this : n = k ∨ n ∈ rest.map Prod.fst) with h' | h'
        · exact absurd h' hne
        · exact h'
      have hIH := ih (l₁ ++ l₂) hnn' hnd' hsub'
      have hmap : ((l₁ ++ l₂).map (weightOf ((k, v) :: rest))).sum
          = ((l₁ ++ l₂).map (weightOf rest)).sum := by
        rw [List.map_congr_left hcongr]
      have hexpand : ((l₁ ++ k :: l₂).map (weightOf ((k, v) :: rest))).sum
          = ((l₁ ++ l₂).map (weightOf ((k, v) :: rest))).sum + v := by
        simp [List.map_append, List.sum_append, weightOf_cons_self]
        ring
      rw [hexpand, hmap, totalWeight_cons]
      linarith
    · have hcongr : ∀ n ∈ names, weightOf ((k, v) :: rest) n = weightOf rest n := by
        intro n hn
        have hne : n ≠ k := fun he => hk (he ▸ hn)
        exact weightOf_cons_ne hne v rest
      have hsub' : ∀ n ∈ names, n ∈ rest.map Prod.fst := by
        intro n hn
        have hne : n ≠ k := fun he => hk (he ▸ hn)
        rcases (by simpa using hsub n hn : n = k ∨ n ∈ rest.map Prod.fst) with h' | h'
        · exact absurd h' hne
        · exact h'
      rw [List.map_congr_left hcongr, totalWeight_cons]
      have := ih names hnn' (hnd) hsub'
      linarith

/-! ### Helper lemmas about the matrix builder -/

theorem dictInsert_append {α : Type} (k : String) (v : α) :
    ∀ (d : List (String × α)), k ∉ d.map Prod.fst → dictInsert d k v = d ++ [(k, v)] := by
  intro d
  induction d with
  | nil => intro _; rfl
  | cons kv rest ih =>
    obtain ⟨k', v'⟩ := kv
    intro h
    have hne : k' ≠ k := by
      intro he
      exact h (by simp [he])
    have hrest : k ∉ rest.map Prod.fst := fun hm => h (by simp [hm])
    simp only [dictInsert, if_neg hne, ih hrest, List.cons_append]

theorem foldl_dictInsert {α : Type} (g : String → α) :
    ∀ (names : List String) (d : List (String × α)),
      names.Nodup → (∀ n ∈ names, n ∉ d.map Prod.fst) →
      names.foldl (fun acc n => dictInsert acc n (g n)) d
        = d ++ names.map (fun n => (n, g n)) := by
  intro names
  induction names with
  | nil => intro d _ _; simp
  | cons n names ih =>
    intro d hnd hdisj
    have hn : n ∉ d.map Prod.fst := hdisj n (by simp)
    have hnotin : n ∉ names := (List.nodup_cons.mp hnd).1
    have hnd' : names.Nodup := (List.nodup_cons.mp hnd).2
    simp only [List.foldl_cons, dictInsert_append n (g n) d hn]
    rw [ih (d ++ [(n, g n)]) hnd']
    · simp
    · intro m hm
      have hmd : m ∉ d.map Prod.fst := hdisj m (by simp [hm])
      have hmn : m ≠ n := fun he => hnotin (he ▸ hm)
      simp [hmd, hmn]

theorem buildMatrix_cols (features : List Feature) (pf : Coverage)
    (hf : (features.map (·.feature_name)).Nodup) :
    (buildMatrix features pf).cols =
      (features.map (·.feature_name)).map
        (fun fn => (fn, (List.insertionSort strLe (pf.map Prod.fst)).map
          (fun p => decide (fn ∈ pyGet pf p)))) := by
  simp only [buildMatrix]
  rw [foldl_dictInsert _ _ _ hf (by simp)]
  simp

theorem lookup_map_pair {α : Type} (g : String → α) :
    ∀ (l : List String) (a : String), a ∈ l →
      List.lookup a (l.map (fun n => (n, g n))) = some (g a) := by
  intro l
  induction l with
  | nil => intro a ha; simp at ha
  | cons n l ih =>
    intro a ha
    cases hk : (a == n) with
    | true =>
      have : a = n := by simpa using hk
      simp [List.lookup, hk, this]
    | false =>
      have hne : a ≠ n := by simpa using beq_eq_false_iff_ne.mp hk
      have : a ∈ l := by
        rcases List.mem_cons.mp ha with h' | h'
        · exact absurd h' hne
        · exact h'
      simp [List.lookup, hk, ih a this]

theorem lookup_zip_map (h : String → Bool) :
    ∀ (l : List String) (p : String), p ∈ l →
      List.lookup p (l.zip (l.map h)) = some (h p) := by
  intro l
  induction l with
  | nil => intro p hp; simp at hp
  | cons n l ih =>
    intro p hp
    cases hk : (p == n) with
    | true =>
      have : p = n := by simpa using hk
      simp [List.zip_cons_cons, List.lookup, hk, this]
    | false =>
      have hne : p ≠ n := by simpa using beq_eq_false_iff_ne.mp hk
      have hmem : p ∈ l := by
        rcases List.mem_cons.mp hp with h' | h'
        · exact absurd h' hne
        · exact h'
      rw [List.map_cons, List.zip_cons_cons, List.lookup]
      simp only [hk]
      exact ih p hmem

/-! ### Helper lemmas about the ranking sort (stability of the stable sort) -/

theorem filter_orderedInsert_pos {α : Type} (r : α → α → Prop) [DecidableRel r]
    (p : α → Bool) (a : α) :
    ∀ l : List α, p a = true → (∀ b ∈ l, ¬ r a b → p b = false) →
      (l.orderedInsert r a).filter p = a :: l.filter p := by
  intro l
  induction l with
  | nil => intro ha _; simp [List.orderedInsert, ha]
  | cons b l ih =>
    intro ha h
    rw [List.orderedInsert]
    by_cases hr : r a b
    · rw [if_pos hr, List.filter_cons_of_pos ha]
    · rw [if_neg hr]
      have hb : p b = false := h b (by simp) hr
      rw [List.filter_cons_of_neg (by simp [hb]), List.filter_cons_of_neg (by simp [hb])]
      exact ih ha (fun c hc => h c (by simp [hc]))

theorem filter_orderedInsert_neg {α : Type} (r : α → α → Prop) [DecidableRel r]
    (p : α → Bool) (a : α) :
    ∀ l : List α, p a = false →
      (l.orderedInsert r a).filter p = l.filter p := by
  intro l
  induction l with
  | nil => intro ha; simp [List.orderedInsert, ha]
  | cons b l ih =>
    intro ha
    rw [List.orderedInsert]
    by_cases hr : r a b
    · rw [if_pos hr, List.filter_cons_of_neg (by simp [ha])]
    · rw [if_neg hr]
      cases hb : p b with
      | true =>
        rw [List.filter_cons_of_pos hb, List.filter_cons_of_pos hb, ih ha]
      | false =>
        rw [List.filter_cons_of_neg (by simp [hb]), List.filter_cons_of_neg (by simp [hb]),
          ih ha]

theorem sortDesc_filter_score (s : ℚ) :
    ∀ l : List (String × ℚ),
      (List.insertionSort (fun a b => b.2 ≤ a.2) l).filter (fun x => decide (x.2 = s))
        = l.filter (fun x => decide (x.2 = s)) := by
  intro l
  induction l with
  | nil => rfl
  | cons a l ih =>
    rw [List.insertionSort]
    by_cases hp : a.2 = s
    · rw [filter_orderedInsert_pos _ _ a _ (by simp [hp]) ?_]
      · rw [ih, List.filter_cons_of_pos (by simp [hp])]
      · intro b hb hr
        have : a.2 < b.2 := lt_of_not_le hr
        have : b.2 ≠ s := by rw [← hp]; exact ne_of_gt this
        simp [this]
    · rw [filter_orderedInsert_neg _ _ a _ (by simp [hp]), ih,
        List.filter_cons_of_neg (by simp [hp])]

theorem filter_enumFrom_map {α β : Type} (f : α → β) (p : α → Bool) :
    ∀ (l : List α) (n : ℕ),
      ((List.enumFrom n l).filter (fun x => p x.2)).map (fun x => f x.2)
        = (l.filter p).map f := by
  intro l
  induction l with
  | nil => intro n; rfl
  | cons a l ih =>
    intro n
    rw [List.enumFrom]
    cases hp : p a with
    | true =>
      rw [List.filter_cons_of_pos (by simpa using hp), List.filter_cons_of_pos hp,
        List.map_cons, List.map_cons, ih (n + 1)]
    | false =>
      rw [List.filter_cons_of_neg (by simpa using hp), List.filter_cons_of_neg (by simp [hp]),
        ih (n + 1)]

/-! ### Claim theorems -/

/-- C1 (counterexample): with the score mapping `{"b": 1, "a": 1}` — two products
tied on score — `rank_products_by_score` returns the products in input order
`["b", "a"]`, which is not alphabetically ascending, so ties are NOT ordered
alphabetically by product name. -/
theorem rank_tie_not_alphabetical :
    ((rankProductsByScore [("b", 1), ("a", 1)] "z").map (·.product) = ["b", "a"])
    ∧ ¬ List.Sorted strLe ((rankProductsByScore [("b", 1), ("a", 1)] "z").map (·.product)) := by
  decide

/-- C1 (amended): for every score mapping in which products tie, the ranking
sequence keeps the tied products in the order they occur in the input mapping
(the sort is stable: restricted to any fixed score value, the output order
equals the input order), and rank numbers are the distinct consecutive values
1, 2, …, n. -/
theorem rank_tie_input_order (ws : List (String × ℚ)) (pname : String) (s : ℚ) :
    ((rankProductsByScore ws pname).filter (fun e => decide (e.score = s))).map (·.product)
      = (ws.filter (fun x => decide (x.2 = s))).map Prod.fst
    ∧ (rankProductsByScore ws pname).map (·.rank) = List.range' 1 ws.length := by
  constructor
  · simp only [rankProductsByScore]
    rw [List.filter_map, List.map_map]
    show ((List.enumFrom 1 (List.insertionSort (fun a b => b.2 ≤ a.2) ws)).filter
        (fun x => (fun y : String × ℚ => decide (y.2 = s)) x.2)).map
        (fun x => (fun y : String × ℚ => y.1) x.2)
      = (ws.filter (fun x => decide (x.2 = s))).map Prod.fst
    rw [filter_enumFrom_map (fun y : String × ℚ => y.1) (fun y : String × ℚ => decide (y.2 = s)),
      sortDesc_filter_score]
  · simp only [rankProductsByScore, List.map_map]
    show (List.enumFrom 1 (List.insertionSort (fun a b => b.2 ≤ a.2) ws)).map Prod.fst
      = List.range' 1 ws.length
    rw [List.enumFrom_map_fst, List.length_insertionSort]

/-- C2 (counterexample): with weight table `{"f": 2}` and coverage
`{"p": ["g"]}` — the name "g" matching no feature of the table — the score is
50.0, not the 0.0 it would be if the stray name contributed nothing (coverage
`{"p": []}` scores 0.0): the stray name contributes the default weight 1.0. -/
theorem stray_feature_scores_default_weight :
    calculateWeightedScores [("p", ["g"])] [("f", 2)] = [("p", 50)]
    ∧ calculateWeightedScores [("p", [])] [("f", 2)] = [("p", 0)]
    ∧ ((50 : ℚ) ≠ 0) := by
  refine ⟨?_, ?_, by norm_num⟩
  · have hw : weightOf [("f", (2:ℚ))] "g" = 1 := by decide
    simp only [calculateWeightedScores, totalWeight, rawScore, List.map_cons, List.map_nil,
      List.sum_cons, List.sum_nil, List.foldl, hw]
    norm_num [pyRound2, roundHalfEven, Int.fract, round_eq]
  · simp only [calculateWeightedScores, totalWeight, rawScore, List.map_cons, List.map_nil,
      List.sum_cons, List.sum_nil, List.foldl]
    norm_num [pyRound2, roundHalfEven, Int.fract, round_eq]

/-- C2 (amended): a name in a product's owned-features list that does not match
any feature in the weight table contributes the default weight 1.0 to that
product's raw score (not nothing), and the score computation raises no error on
such names (it is total). -/
theorem stray_feature_adds_default_weight (fw : WeightTable) (n : String) (l : List String)
    (h : List.lookup n fw = none) :
    rawScore fw (n :: l) = 1 + rawScore fw l := by
  rw [rawScore_cons, weightOf, h, Option.getD_none]

/-- Witness for `stray_feature_adds_default_weight` at the weight table
`{"f": 2}` and the stray name "g". -/
theorem stray_feature_adds_default_weight_witness :
    List.lookup "g" ([("f", 2)] : WeightTable) = none
    ∧ rawScore [("f", 2)] ["g"] = 1 + rawScore [("f", 2)] [] :=
  ⟨by decide, stray_feature_adds_default_weight [("f", 2)] "g" [] (by decide)⟩

/-- C3 (counterexample): the weight table `{"f": 2}` has strictly positive total
weight, yet with coverage `{"p": ["g", "g", "g"]}` the product's score is 150.0,
outside [0, 100]: stray names (similarly, duplicated names) make the raw score
exceed the total weight. -/
theorem score_bound_violated :
    (0 : ℚ) < totalWeight [("f", 2)]
    ∧ calculateWeightedScores [("p", ["g", "g", "g"])] [("f", 2)] = [("p", 150)]
    ∧ ¬ ((150 : ℚ) ≤ 100) := by
  refine ⟨by norm_num [totalWeight], ?_, by norm_num⟩
  have hw : weightOf [("f", (2:ℚ))] "g" = 1 := by decide
  simp only [calculateWeightedScores, totalWeight, rawScore, List.map_cons, List.map_nil,
    List.sum_cons, List.sum_nil, List.foldl, hw]
  norm_num [pyRound2, roundHalfEven, Int.fract, round_eq]

/-- C3 (amended): for every weight table with nonnegative weights and strictly
positive total, and every coverage map in which each product's owned-features
list is duplicate-free and mentions only names present in the weight table,
every computed score lies between 0 and 100 inclusive. -/
theorem score_bounds_of_wellformed (pf : Coverage) (fw : WeightTable)
    (hnn : ∀ w ∈ fw.map Prod.snd, 0 ≤ w) (hpos : 0 < totalWeight fw)
    (hwf : ∀ pl ∈ pf, pl.2.Nodup ∧ ∀ n ∈ pl.2, n ∈ fw.map Prod.fst) :
    ∀ ps ∈ calculateWeightedScores pf fw, 0 ≤ ps.2 ∧ ps.2 ≤ 100 := by
  intro ps hps
  have ht0 : ¬ (totalWeight fw = 0) := ne_of_gt hpos
  simp only [calculateWeightedScores, if_neg ht0, if_pos hpos, List.mem_map] at hps
  obtain ⟨pl, hpl, rfl⟩ := hps
  dsimp only
  have hraw0 : 0 ≤ rawScore fw pl.2 := rawScore_nonneg hnn pl.2
  have hrawle : rawScore fw pl.2 ≤ totalWeight fw := by
    rw [rawScore_eq_sum]
    exact lookup_sum_le fw pl.2 hnn (hwf pl hpl).1 (hwf pl hpl).2
  have hx0 : 0 ≤ rawScore fw pl.2 / totalWeight fw * 100 :=
    mul_nonneg (div_nonneg hraw0 (le_of_lt hpos)) (by norm_num)
  have hx1 : rawScore fw pl.2 / totalWeight fw * 100 ≤ 100 := by
    have hd : rawScore fw pl.2 / totalWeight fw ≤ 1 := (div_le_one hpos).mpr hrawle
    nlinarith
  exact pyRound2_bounds hx0 hx1

/-- Witness for `score_bounds_of_wellformed` at weight table
`{"f": 2, "g": 2}` and coverage `{"p": ["f"]}`, whose score is 50.0. -/
theorem score_bounds_of_wellformed_witness :
    ((0 : ℚ) < totalWeight [("f", 2), ("g", 2)])
    ∧ (("p", (50 : ℚ)) ∈ calculateWeightedScores [("p", ["f"])] [("f", 2), ("g", 2)])
    ∧ (0 ≤ (50 : ℚ) ∧ (50 : ℚ) ≤ 100) := by
  have hpos : (0 : ℚ) < totalWeight [("f", 2), ("g", 2)] := by norm_num [totalWeight]
  have heval : calculateWeightedScores [("p", ["f"])] [("f", 2), ("g", 2)] = [("p", 50)] := by
    have hw : weightOf [("f", (2:ℚ)), ("g", 2)] "f" = 2 := by decide
    simp only [calculateWeightedScores, totalWeight, rawScore, List.map_cons, List.map_nil,
      List.sum_cons, List.sum_nil, List.foldl, hw]
    norm_num [pyRound2, roundHalfEven, Int.fract, round_eq]
  have hmem : ("p", (50 : ℚ)) ∈ calculateWeightedScores [("p", ["f"])] [("f", 2), ("g", 2)] := by
    rw [heval]; simp
  refine ⟨hpos, hmem, ?_⟩
  simpa using
    score_bounds_of_wellformed [("p", ["f"])] [("f", 2), ("g", 2)] (by decide) hpos
      (by decide) ("p", 50) hmem

/-- C4 (counterexample): with the all-zero weight table `{"f": 0}` and coverage
`{"p": ["g"]}`, no exception is raised but the score is 100.0, not 0.0: the
stray name "g" picks up the default weight 1.0 while the clamped denominator
is 1. -/
theorem zero_weights_nonzero_score_on_stray :
    (∀ w ∈ ([("f", 0)] : WeightTable).map Prod.snd, w = 0)
    ∧ calculateWeightedScores [("p", ["g"])] [("f", 0)] = [("p", 100)]
    ∧ ((100 : ℚ) ≠ 0) := by
  refine ⟨by decide, ?_, by norm_num⟩
  have hw : weightOf [("f", (0:ℚ))] "g" = 1 := by decide
  simp only [calculateWeightedScores, totalWeight, rawScore, List.map_cons, List.map_nil,
    List.sum_cons, List.sum_nil, List.foldl, hw]
  norm_num [pyRound2, roundHalfEven, Int.fract, round_eq]

/-- C4 (amended): for every weight table in which every weight is 0, the score
computation raises no exception (it is total, the denominator being clamped to
1) and returns 0.0 for every product whose owned-features list contains only
names present in the weight table. -/
theorem zero_weights_all_zero_scores (pf : Coverage) (fw : WeightTable)
    (hz : ∀ w ∈ fw.map Prod.snd, w = 0)
    (hcov : ∀ pl ∈ pf, ∀ n ∈ pl.2, n ∈ fw.map Prod.fst) :
    calculateWeightedScores pf fw = pf.map (fun pl => (pl.1, 0)) := by
  have ht0 : totalWeight fw = 0 := by
    rw [totalWeight]
    exact List.sum_eq_zero hz
  simp only [calculateWeightedScores]
  apply List.map_congr_left
  intro pl hpl
  have hraw : rawScore fw pl.2 = 0 := by
    rw [rawScore_eq_sum]
    apply List.sum_eq_zero
    intro x hx
    obtain ⟨n, hn, rfl⟩ := List.mem_map.mp hx
    exact weightOf_eq_zero hz (hcov pl hpl n hn)
  rw [ht0, hraw]
  norm_num
  have h0 := pyRound2_intCast 0
  simpa using h0

/-- Witness for `zero_weights_all_zero_scores` at the all-zero weight table
`{"f": 0}` and coverage `{"p": ["f"]}`. -/
theorem zero_weights_all_zero_scores_witness :
    (∀ w ∈ ([("f", 0)] : WeightTable).map Prod.snd, w = 0)
    ∧ calculateWeightedScores [("p", ["f"])] [("f", 0)] = [("p", 0)] := by
  refine ⟨by decide, ?_⟩
  have := zero_weights_all_zero_scores [("p", ["f"])] [("f", 0)] (by decide) (by decide)
  simpa using this

/-- C5 (counterexample): passing `None` in place of an argument of the matrix
builder fails with the Python built-in `AttributeError` (coverage `None`) or
`TypeError` (catalog `None`), not with an `InvalidInput` error — no
`InvalidInput` error exists anywhere in the code. -/
theorem build_matrix_none_not_invalid_input :
    buildMatrixChecked (some []) none = Except.error PyError.attributeError
    ∧ buildMatrixChecked none none = Except.error PyError.typeError
    ∧ Except.error PyError.attributeError ≠ (Except.error PyError.invalidInput : Except PyError Df)
    ∧ Except.error PyError.typeError ≠ (Except.error PyError.invalidInput : Except PyError Df) := by
  refine ⟨rfl, rfl, ?_, ?_⟩ <;> · intro h; simp at h

/-- C5 (amended): for every structurally malformed argument (`None` in place of
the catalog list or the coverage mapping), the matrix builder fails immediately
with a built-in Python error (`TypeError` when the catalog is `None`,
`AttributeError` when the coverage is `None`), computing no matrix — but the
error is a generic built-in one, not a dedicated `InvalidInput` error. -/
theorem build_matrix_none_raises_builtin_error :
    (∀ pfOpt : Option Coverage, buildMatrixChecked none pfOpt = Except.error PyError.typeError)
    ∧ (∀ fs : List Feature,
        buildMatrixChecked (some fs) none = Except.error PyError.attributeError) :=
  ⟨fun _ => rfl, fun _ => rfl⟩

/-- C6: for every catalog and coverage map, the product rows (the index) of the
matrix built by `_build_matrix` are exactly the coverage map's product names,
arranged in ascending lexicographic order; being a pure function of its inputs,
repeated builds from identical input therefore produce identical output. -/
theorem build_matrix_rows_sorted (features : List Feature) (pf : Coverage) :
    List.Sorted strLe (buildMatrix features pf).index
    ∧ (buildMatrix features pf).index.Perm (pf.map Prod.fst) := by
  constructor
  · exact List.sorted_insertionSort strLe (pf.map Prod.fst)
  · exact List.perm_insertionSort strLe (pf.map Prod.fst)

/-- C7: for every catalog with unique feature names and every coverage map, the
built matrix is fully dense: it has exactly `|catalog| × |products|` cells,
every (product, feature) pair has a defined boolean cell equal to the
membership test of the feature in the product's coverage, and in particular the
cell is `false` whenever the product's coverage does not list the feature. -/
theorem build_matrix_dense (features : List Feature) (pf : Coverage)
    (hf : (features.map (·.feature_name)).Nodup) :
    ((buildMatrix features pf).cols.map (fun c => c.2.length)).sum
        = features.length * pf.length
    ∧ (∀ p ∈ pf.map Prod.fst, ∀ fe ∈ features,
        cell (buildMatrix features pf) p fe.feature_name
          = some (decide (fe.feature_name ∈ pyGet pf p)))
    ∧ (∀ p ∈ pf.map Prod.fst, ∀ fe ∈ features,
        fe.feature_name ∉ pyGet pf p →
          cell (buildMatrix features pf) p fe.feature_name = some false) := by
  have hcols := buildMatrix_cols features pf hf
  have hcell : ∀ p ∈ pf.map Prod.fst, ∀ fe ∈ features,
      cell (buildMatrix features pf) p fe.feature_name
        = some (decide (fe.feature_name ∈ pyGet pf p)) := by
    intro p hp fe hfe
    have hpmem : p ∈ List.insertionSort strLe (pf.map Prod.fst) :=
      (List.mem_insertionSort strLe).mpr hp
    have hindex : (buildMatrix features pf).index
        = List.insertionSort strLe (pf.map Prod.fst) := rfl
    rw [cell, hcols, hindex]
    rw [lookup_map_pair
      (fun fn => (List.insertionSort strLe (pf.map Prod.fst)).map
        (fun q => decide (fn ∈ pyGet pf q)))
      (features.map (·.feature_name)) fe.feature_name
      (List.mem_map_of_mem _ hfe)]
    rw [Option.some_bind]
    exact lookup_zip_map (fun q => decide (fe.feature_name ∈ pyGet pf q)) _ p hpmem
  refine ⟨?_, hcell, ?_⟩
  · rw [hcols, List.map_map]
    have : ((features.map (·.feature_name)).map
        ((fun c : String × List Bool => c.2.length) ∘
          (fun fn => (fn, (List.insertionSort strLe (pf.map Prod.fst)).map
            (fun p => decide (fn ∈ pyGet pf p))))))
        = (features.map (·.feature_name)).map
            (fun _ => (List.insertionSort strLe (pf.map Prod.fst)).length) := by
      apply List.map_congr_left
      intro fn _
      simp
    rw [this, List.map_const', List.sum_replicate, smul_eq_mul, List.length_map,
      List.length_insertionSort, List.length_map]
  · intro p hp fe hfe hnot
    rw [hcell p hp fe hfe, decide_eq_false hnot]

/-- Witness for `build_matrix_dense` at the two-feature catalog
`[SSO, API]` and coverage `{"Acme": ["SSO"], "Beta": ["SSO", "API"]}`:
4 cells in total, and Acme's API cell is an explicit `false`. -/
theorem build_matrix_dense_witness :
    ((List.map (·.feature_name) [(⟨"SSO"⟩ : Feature), ⟨"API"⟩]).Nodup)
    ∧ (((buildMatrix [⟨"SSO"⟩, ⟨"API"⟩] [("Acme", ["SSO"]), ("Beta", ["SSO", "API"])]).cols.map
        (fun c => c.2.length)).sum = 4)
    ∧ cell (buildMatrix [⟨"SSO"⟩, ⟨"API"⟩] [("Acme", ["SSO"]), ("Beta", ["SSO", "API"])])
        "Acme" "API" = some false := by
  have hnd : (List.map (·.feature_name) [(⟨"SSO"⟩ : Feature), ⟨"API"⟩]).Nodup := by decide
  obtain ⟨h1, h2, h3⟩ := build_matrix_dense [⟨"SSO"⟩, ⟨"API"⟩]
    [("Acme", ["SSO"]), ("Beta", ["SSO", "API"])] hnd
  refine ⟨hnd, ?_, ?_⟩
  · rw [h1]
    decide
  · exact h3 "Acme" (by decide) ⟨"API"⟩ (by decide) (by decide)

/-- C8: for every score mapping and main-product name, the ranking sequence has
rank values exactly 1, 2, …, n (1-based, strictly increasing, consecutive even
across ties) and non-increasing score values when walked in order. -/
theorem rank_monotone (ws : List (String × ℚ)) (pname : String) :
    (rankProductsByScore ws pname).map (·.rank) = List.range' 1 ws.length
    ∧ List.Pairwise (· < ·) ((rankProductsByScore ws pname).map (·.rank))
    ∧ List.Sorted (fun a b : ℚ => b ≤ a) ((rankProductsByScore ws pname).map (·.score)) := by
  have hrank : (rankProductsByScore ws pname).map (·.rank) = List.range' 1 ws.length := by
    simp only [rankProductsByScore, List.map_map]
    show (List.enumFrom 1 (List.insertionSort (fun a b => b.2 ≤ a.2) ws)).map Prod.fst
      = List.range' 1 ws.length
    rw [List.enumFrom_map_fst, List.length_insertionSort]
  have hscore : List.Sorted (fun a b : ℚ => b ≤ a)
      ((rankProductsByScore ws pname).map (·.score)) := by
    have hs := List.sorted_insertionSort (fun a b : String × ℚ => b.2 ≤ a.2) ws
    have henum : List.Pairwise (fun x y : ℕ × (String × ℚ) => y.2.2 ≤ x.2.2)
        (List.enumFrom 1 (List.insertionSort (fun a b => b.2 ≤ a.2) ws)) := by
      have h2 := hs
      rw [← List.enumFrom_map_snd 1 (List.insertionSort (fun a b => b.2 ≤ a.2) ws)] at h2
      rw [List.Sorted, List.pairwise_map] at h2
      exact h2
    simp only [rankProductsByScore, List.map_map]
    show List.Pairwise (fun a b : ℚ => b ≤ a)
        ((List.enumFrom 1 (List.insertionSort (fun a b => b.2 ≤ a.2) ws)).map (fun x => x.2.2))
    rw [List.pairwise_map]
    exact henum
  refine ⟨hrank, ?_, hscore⟩
  rw [hrank]
  exact List.pairwise_lt_range' 1 ws.length

/-- C9: for every feature-rows matrix and weight table,
`create_weighted_comparison_matrix` returns a new structure that leaves the
input matrix data unchanged (product columns and all feature rows and cells are
preserved), and each per-product per-feature contribution (score cell) equals
the feature's weight when the product owns the feature (cell `"✓"`) and 0
otherwise. -/
theorem weighted_matrix_pure_decoration (matrix_df : FDf) (fw : WeightTable) :
    (createWeightedComparisonMatrix matrix_df fw).products = matrix_df.products
    ∧ (createWeightedComparisonMatrix matrix_df fw).rows.map (fun r => FRow.mk r.feature r.cells)
        = matrix_df.rows
    ∧ ∀ r ∈ (createWeightedComparisonMatrix matrix_df fw).rows,
        r.weight = weightOf fw r.feature
        ∧ r.scores.length = r.cells.length
        ∧ ∀ i (hi : i < r.scores.length) (hc : i < r.cells.length),
            r.scores.get ⟨i, hi⟩
              = if r.cells.get ⟨i, hc⟩ = "✓" then weightOf fw r.feature else 0 := by
  refine ⟨rfl, ?_, ?_⟩
  · simp only [createWeightedComparisonMatrix, List.map_map]
    have : ∀ r ∈ matrix_df.rows,
        ((fun r : WRow => FRow.mk r.feature r.cells) ∘
          (fun r : FRow =>
            WRow.mk r.feature r.cells (weightOf fw r.feature)
              (r.cells.map fun c => if c = "✓" then weightOf fw r.feature else 0))) r = r := by
      intro r _
      rfl
    rw [List.map_congr_left this]
    simp
  · intro r hr
    simp only [createWeightedComparisonMatrix, List.mem_map] at hr
    obtain ⟨src, hsrc, rfl⟩ := hr
    refine ⟨rfl, by simp, ?_⟩
    intro i hi hc
    simp only [List.get_eq_getElem, List.getElem_map]

/-- Witness for `weighted_matrix_pure_decoration` at the matrix with one
product "A" and one feature row `("f", ["✓"])` and weight table `{"f": 2}`. -/
theorem weighted_matrix_pure_decoration_witness :
    (createWeightedComparisonMatrix ⟨["A"], [⟨"f", ["✓"]⟩]⟩ [("f", 2)]).products = ["A"]
    ∧ (createWeightedComparisonMatrix ⟨["A"], [⟨"f", ["✓"]⟩]⟩ [("f", 2)]).rows.map
        (fun r => FRow.mk r.feature r.cells) = [⟨"f", ["✓"]⟩]
    ∧ (WRow.mk "f" ["✓"] (weightOf [("f", 2)] "f")
        (["✓"].map fun c => if c = "✓" then weightOf [("f", 2)] "f" else 0)).weight
        = weightOf [("f", 2)] "f" := by
  obtain ⟨h1, h2, h3⟩ := weighted_matrix_pure_decoration ⟨["A"], [⟨"f", ["✓"]⟩]⟩ [("f", 2)]
  refine ⟨h1, h2, ?_⟩
  exact (h3 _ (by simp [createWeightedComparisonMatrix])).1

/-- C10: the score loop adds the looked-up weight once per occurrence of a name
in the owned-features list (the raw score is additive over the list), so a
product's score depends on the multiplicity of names: with weight table
`{"f": 2}`, the coverage `{"p": ["f", "f"]}` scores 200.0 while `{"p": ["f"]}`
scores 100.0, although both lists have the same set of distinct names. -/
theorem score_counts_multiplicity :
    (∀ (fw : WeightTable) (l₁ l₂ : List String),
        rawScore fw (l₁ ++ l₂) = rawScore fw l₁ + rawScore fw l₂)
    ∧ calculateWeightedScores [("p", ["f", "f"])] [("f", 2)] = [("p", 200)]
    ∧ calculateWeightedScores [("p", ["f"])] [("f", 2)] = [("p", 100)]
    ∧ ([("p", (200 : ℚ))] ≠ [("p", (100 : ℚ))]) := by
  refine ⟨?_, ?_, ?_, by norm_num⟩
  · intro fw l₁ l₂
    rw [rawScore_eq_sum, rawScore_eq_sum, rawScore_eq_sum, List.map_append, List.sum_append]
  · have hw : weightOf [("f", (2:ℚ))] "f" = 2 := by decide
    simp only [calculateWeightedScores, totalWeight, rawScore, List.map_cons, List.map_nil,
      List.sum_cons, List.sum_nil, List.foldl, hw]
    norm_num [pyRound2, roundHalfEven, Int.fract, round_eq]
  · have hw : weightOf [("f", (2:ℚ))] "f" = 2 := by decide
    simp only [calculateWeightedScores, totalWeight, rawScore, List.map_cons, List.map_nil,
      List.sum_cons, List.sum_nil, List.foldl, hw]
    norm_num [pyRound2, roundHalfEven, Int.fract, round_eq]
